import Mathlib

/-!
Shallow embedding of the local supermemory document server
(Hono app: document store, query layer, and the per-document endpoints).

Modelling conventions:
* JS strings are Lean `String`s; the JS operations `startsWith`, `slice`
  and `endsWith` are embedded through the character list (`String.data`),
  which is the same sequence-of-characters semantics.
* Timestamps (`new Date().toISOString()`, compared through
  `new Date(s).getTime()`) are embedded as `Nat` instants; the server only
  ever writes and compares them monotonically.
* A JSON metadata object is an association list from string keys to
  values; JS object spread `{...a, ...b}` is `mergeMeta a b` below,
  keeping JS key order (keys of `a` first, then fresh keys of `b`).
* The data directory is a list of (filename, file content) pairs in
  enumeration order; a file either parses to a record or is corrupt.
* Fallible endpoints return `Except ApiError`; the server's 404 response
  `{error: 'Document not found'}` is `ApiError.notFound`.
-/

namespace Supermemory

/-- A JSON-ish value stored in a record's `metadata` object or in
`memoryEntries`. -/
inductive Val where
  | num : Int → Val
  | str : String → Val
  deriving DecidableEq, Repr

/-- A JSON object used for `metadata`: keys in object order. -/
abbrev Meta := List (String × Val)

/-- First-match association-list lookup (JS property access on the objects
we model as association lists). -/
def lookupKey {β : Type} (k : String) : List (String × β) → Option β
  | [] => none
  | p :: rest => if p.1 = k then some p.2 else lookupKey k rest

/-- JS object spread `{...old, ...upd}`: every key of `old` (in order,
with the value from `upd` when `upd` also has the key), then the keys of
`upd` that are not in `old`, in their order. -/
def mergeMeta (old upd : Meta) : Meta :=
  old.map (fun p =>
    match lookupKey p.1 upd with
    | some v => (p.1, v)
    | none => p)
  ++ upd.filter (fun p => (lookupKey p.1 old).isNone)

/-- The persisted document ("memory") record, as created and stored by
the server. -/
structure Record where
  id : String
  content : String
  url : Option String
  title : String
  type : String
  status : String
  createdAt : Nat
  updatedAt : Nat
  containerTags : List String
  metadata : Meta
  memoryEntries : List Val
  deriving DecidableEq, Repr

/-- `content.startsWith('http')` — the classification test in the create
handler, embedded on the character sequence. -/
def startsWithHttp (content : String) : Bool :=
  "http".data.isPrefixOf content.data

/-- `content.slice(0, 50)` — first 50 characters of the content. -/
def slice50 (content : String) : String :=
  String.mk (content.data.take 50)

/-- POST `/v3/documents` — builds the record for a create call.  `id` is
the freshly generated `crypto.randomUUID()` and `now` the current time;
`containerTags` / `metadata` are the (possibly absent) request fields,
defaulted with `|| []` and `|| {}` in the source. -/
def createMemory (id : String) (now : Nat) (content : String)
    (containerTags : Option (List String)) (metadata : Option Meta) : Record :=
  let type := if startsWithHttp content then "link" else "note"
  { id := id
    content := content
    url := if type = "link" then some content else none
    title := if type = "link" then content else slice50 content
    type := type
    status := "done"
    createdAt := now
    updatedAt := now
    containerTags := containerTags.getD []
    metadata := metadata.getD []
    memoryEntries := [] }

/-- Content of one file in the data directory: either it parses
(`JSON.parse` succeeds) to a record, or it is corrupt. -/
inductive FileContent where
  | valid : Record → FileContent
  | corrupt : FileContent
  deriving DecidableEq, Repr

/-- The data directory: files in enumeration order, keyed by filename. -/
abbrev Store := List (String × FileContent)

/-- The filename `${id}.json` used for a record id. -/
def jsonName (id : String) : String := id ++ ".json"

/-- `file.endsWith('.json')` — the filter in `getAllMemories`. -/
def isJsonFile (name : String) : Bool :=
  ".json".data.isSuffixOf name.data

/-- `saveMemory`: `fs.writeFile` at `${memory.id}.json` — overwrites the
file when it exists, otherwise creates it. -/
def saveMemory (s : Store) (m : Record) : Store :=
  if (lookupKey (jsonName m.id) s).isSome then
    s.map (fun p => if p.1 = jsonName m.id then (p.1, FileContent.valid m) else p)
  else
    s ++ [(jsonName m.id, FileContent.valid m)]

/-- The read loop of `getAllMemories`: for each directory entry ending in
`.json`, try to read and parse it; a record that parses is pushed, a
corrupt one is logged and skipped. -/
def readMemories : Store → List Record
  | [] => []
  | (name, c) :: rest =>
    if isJsonFile name then
      match c with
      | FileContent.valid m => m :: readMemories rest
      | FileContent.corrupt => readMemories rest
    else
      readMemories rest

/-- The sort order of `getAllMemories`: comparator
`(a, b) => new Date(b.createdAt).getTime() - new Date(a.createdAt).getTime()`,
i.e. `a` sorts no later than `b` iff `b.createdAt ≤ a.createdAt`
(descending by creation time). -/
def byCreatedAtDesc (a b : Record) : Prop := b.createdAt ≤ a.createdAt

instance : DecidableRel byCreatedAtDesc :=
  fun a b => inferInstanceAs (Decidable (b.createdAt ≤ a.createdAt))

instance : IsTotal Record byCreatedAtDesc :=
  ⟨fun a b => Nat.le_total b.createdAt a.createdAt⟩

instance : IsTrans Record byCreatedAtDesc :=
  ⟨fun _ _ _ hab hbc => Nat.le_trans hbc hab⟩

/-- `getAllMemories`: read every parseable record, then sort newest
first.  JS `Array.prototype.sort` is stable; `List.insertionSort` is the
corresponding stable sort for the comparator above. -/
def getAllMemories (s : Store) : List Record :=
  List.insertionSort byCreatedAtDesc (readMemories s)

/-- The error payload `{error: 'Document not found'}` with status 404. -/
inductive ApiError where
  | notFound : ApiError
  deriving DecidableEq, Repr

/-- GET `/v3/documents/:id`: read and `JSON.parse` the file
`${id}.json`; any failure (missing file or unparseable content) is caught
and answered with 404. -/
def getMemory (s : Store) (id : String) : Except ApiError Record :=
  match lookupKey (jsonName id) s with
  | some (FileContent.valid m) => Except.ok m
  | some FileContent.corrupt => Except.error ApiError.notFound
  | none => Except.error ApiError.notFound

/-- DELETE `/v3/documents/:id`: `fs.unlink` of `${id}.json`, 404 when
the file does not exist. -/
def deleteMemory (s : Store) (id : String) : Except ApiError Store :=
  if (lookupKey (jsonName id) s).isSome then
    Except.ok (s.filter (fun p => p.1 != jsonName id))
  else
    Except.error ApiError.notFound

/-- The JSON body of a PATCH request: any subset of the record's
top-level fields may be supplied (`url` may be supplied as `null`, hence
the nested option). -/
structure UpdateBody where
  id : Option String := none
  content : Option String := none
  url : Option (Option String) := none
  title : Option String := none
  type : Option String := none
  status : Option String := none
  createdAt : Option Nat := none
  containerTags : Option (List String) := none
  metadata : Option Meta := none
  memoryEntries : Option (List Val) := none
  deriving DecidableEq, Repr

/-- The object built by the PATCH handler:
`{...memory, ...body, metadata: {...memory.metadata, ...body.metadata}, updatedAt: now}`.
A top-level field supplied in the body replaces the stored one (absent
body fields keep the stored value); `metadata` and `updatedAt` appear
after the spread of `body` in the literal, so they win regardless of the
body. -/
def applyBody (m : Record) (b : UpdateBody) (now : Nat) : Record :=
  { id := b.id.getD m.id
    content := b.content.getD m.content
    url := b.url.getD m.url
    title := b.title.getD m.title
    type := b.type.getD m.type
    status := b.status.getD m.status
    createdAt := b.createdAt.getD m.createdAt
    updatedAt := now
    containerTags := b.containerTags.getD m.containerTags
    metadata := mergeMeta m.metadata (b.metadata.getD [])
    memoryEntries := b.memoryEntries.getD m.memoryEntries }

/-- PATCH `/v3/documents/:id`: read and parse `${id}.json` (any failure
is caught as 404), build the updated record, `saveMemory` it (note: at
`${updated.id}.json`), and return it. -/
def updateMemory (s : Store) (id : String) (b : UpdateBody) (now : Nat) :
    Except ApiError (Record × Store) :=
  match lookupKey (jsonName id) s with
  | some (FileContent.valid m) =>
    let updated := applyBody m b now
    Except.ok (updated, saveMemory s updated)
  | some FileContent.corrupt => Except.error ApiError.notFound
  | none => Except.error ApiError.notFound

/-- POST `/v3/documents` including its persistence effect. -/
def createMemoryOp (s : Store) (id : String) (now : Nat) (content : String)
    (containerTags : Option (List String)) (metadata : Option Meta) :
    Record × Store :=
  let m := createMemory id now content containerTags metadata
  (m, saveMemory s m)

/-- The `containerTags` filter step of the list endpoint:
`if (containerTags && containerTags.length > 0)` keep the records whose
`containerTags` has some tag contained in the filter, else no
filtering. -/
def tagFilter (containerTags : Option (List String)) (memories : List Record) :
    List Record :=
  match containerTags with
  | some tags =>
    if tags.length > 0 then
      memories.filter (fun m => m.containerTags.any (fun t => tags.contains t))
    else
      memories
  | none => memories

/-- The `pagination` object of the list response. -/
structure Pagination where
  currentPage : Nat
  limit : Nat
  totalItems : Nat
  totalPages : Nat
  deriving DecidableEq, Repr

/-- The response of the list endpoint. -/
structure DocumentsResponse where
  documents : List Record
  pagination : Pagination
  deriving DecidableEq, Repr

/-- `Math.ceil(totalItems / limit)`, for a positive `limit`, in `Nat`
arithmetic. -/
def ceilDiv (totalItems limit : Nat) : Nat := (totalItems + limit - 1) / limit

/-- POST `/v3/documents/documents` — filter, paginate, and blank out
`memoryEntries` on each returned document.  `page ≥ 1` and `limit ≥ 1`
are assumed (the spec leaves other inputs undefined), so
`offset = (page - 1) * limit` is the JS value and
`memories.slice(offset, offset + limit)` is drop-then-take. -/
def listDocuments (s : Store) (page limit : Nat)
    (containerTags : Option (List String)) : DocumentsResponse :=
  let memories := tagFilter containerTags (getAllMemories s)
  let totalItems := memories.length
  let totalPages := ceilDiv totalItems limit
  let offset := (page - 1) * limit
  let paginated := (memories.drop offset).take limit
  let documents := paginated.map (fun m => { m with memoryEntries := [] })
  { documents := documents
    pagination :=
      { currentPage := page
        limit := limit
        totalItems := totalItems
        totalPages := totalPages } }

/-- POST `/v3/documents/documents/by-ids`. -/
def listByIds (s : Store) (ids : List String) : List Record :=
  (getAllMemories s).filter (fun m => ids.contains m.id)

/-- Applying a sequence of PATCH bodies (each with its timestamp) to a
record, in order. -/
def applyUpdates (m : Record) : List (UpdateBody × Nat) → Record
  | [] => m
  | (b, t) :: rest => applyUpdates (applyBody m b t) rest

/-! ### Association-list and merge lemmas -/

theorem lookupKey_append {β : Type} (k : String) (xs ys : List (String × β)) :
    lookupKey k (xs ++ ys)
      = (lookupKey k xs).orElse (fun _ => lookupKey k ys) := by
  induction xs with
  | nil => simp [lookupKey]
  | cons p rest ih =>
    by_cases h : p.1 = k <;> simp [lookupKey, h, ih]

theorem lookupKey_mapVals (k : String) (old upd : Meta) :
    lookupKey k (old.map (fun p =>
        match lookupKey p.1 upd with
        | some v => (p.1, v)
        | none => p))
      = (lookupKey k old).map (fun v0 => (lookupKey k upd).getD v0) := by
  induction old with
  | nil => simp [lookupKey]
  | cons p rest ih =>
    obtain ⟨k', v'⟩ := p
    by_cases h : k' = k
    · subst h
      cases hv : lookupKey k' upd <;> simp [lookupKey, hv]
    · cases hv : lookupKey k' upd <;> simp [lookupKey, h, hv, ih]

theorem lookupKey_filter_isNone (old upd : Meta) (k : String) :
    lookupKey k (upd.filter (fun p => (lookupKey p.1 old).isNone))
      = if (lookupKey k old).isNone then lookupKey k upd else none := by
  induction upd with
  | nil => simp [lookupKey]
  | cons p rest ih =>
    obtain ⟨k', v'⟩ := p
    by_cases h : k' = k
    · subst h
      cases hN : (lookupKey k' old).isNone <;> simp [lookupKey, hN, ih]
    · cases hN : (lookupKey k' old).isNone <;> simp [lookupKey, h, hN, ih]

/-- The key law of JS object spread: a key supplied by the update wins,
any other key keeps the old value. -/
theorem lookupKey_mergeMeta (old upd : Meta) (k : String) :
    lookupKey k (mergeMeta old upd)
      = (lookupKey k upd).orElse (fun _ => lookupKey k old) := by
  unfold mergeMeta
  rw [lookupKey_append, lookupKey_mapVals k old upd,
    lookupKey_filter_isNone old upd k]
  cases ho : lookupKey k old <;> cases hu : lookupKey k upd <;>
    simp [ho, hu]

/-- Spreading an absent (`undefined`) metadata object changes nothing. -/
theorem mergeMeta_nil (old : Meta) : mergeMeta old [] = old := by
  unfold mergeMeta
  simp [lookupKey]

/-! ### C1: classification at creation -/

/-- C1: for every create call, content starting with `http` yields a
record with `type = link`, `url = content`, `title = content`; any other
content yields `type = note`, `url = null`, and `title` equal to the
first 50 characters of the content. -/
theorem create_classification (id : String) (now : Nat) (content : String)
    (tags : Option (List String)) (meta : Option Meta) :
    (startsWithHttp content = true →
      (createMemory id now content tags meta).type = "link" ∧
      (createMemory id now content tags meta).url = some content ∧
      (createMemory id now content tags meta).title = content) ∧
    (startsWithHttp content = false →
      (createMemory id now content tags meta).type = "note" ∧
      (createMemory id now content tags meta).url = none ∧
      (createMemory id now content tags meta).title = slice50 content) := by
  constructor <;> intro h <;> simp [createMemory, h]

theorem create_classification_witness :
    ((createMemory "i" 7 "http://example.com" none none).type = "link" ∧
      (createMemory "i" 7 "http://example.com" none none).url
        = some "http://example.com" ∧
      (createMemory "i" 7 "http://example.com" none none).title
        = "http://example.com") ∧
    ((createMemory "i" 7 "hello world" none none).type = "note" ∧
      (createMemory "i" 7 "hello world" none none).url = none ∧
      (createMemory "i" 7 "hello world" none none).title
        = slice50 "hello world") :=
  ⟨(create_classification "i" 7 "http://example.com" none none).1 (by decide),
   (create_classification "i" 7 "hello world" none none).2 (by decide)⟩

/-! ### C2: two-tier update merge -/

/-- C2: an update replaces supplied top-level fields wholesale (e.g.
`title`), while the payload's `metadata` is merged key-by-key over the
existing metadata: supplied metadata keys take the payload value, all
other existing keys are kept; in particular `{a:1, b:2}` updated with
`{b:3, c:4}` gives `{a:1, b:3, c:4}`. -/
theorem update_merge_semantics (m : Record) (b : UpdateBody) (now : Nat) :
    (∀ t, b.title = some t → (applyBody m b now).title = t) ∧
    (∀ k v, lookupKey k (b.metadata.getD []) = some v →
      lookupKey k (applyBody m b now).metadata = some v) ∧
    (∀ k, lookupKey k (b.metadata.getD []) = none →
      lookupKey k (applyBody m b now).metadata = lookupKey k m.metadata) ∧
    mergeMeta [("a", Val.num 1), ("b", Val.num 2)]
        [("b", Val.num 3), ("c", Val.num 4)]
      = [("a", Val.num 1), ("b", Val.num 3), ("c", Val.num 4)] := by
  refine ⟨?_, ?_, ?_, ?_⟩
  · intro t ht
    simp [applyBody, ht]
  · intro k v hv
    simp [applyBody, lookupKey_mergeMeta, hv]
  · intro k hk
    simp [applyBody, lookupKey_mergeMeta, hk]
  · decide

theorem update_merge_semantics_witness :
    (applyBody
        (createMemory "i" 0 "hello" none
          (some [("a", Val.num 1), ("b", Val.num 2)]))
        { title := some "Y"
          metadata := some [("b", Val.num 3), ("c", Val.num 4)] } 1).title
      = "Y" :=
  (update_merge_semantics
    (createMemory "i" 0 "hello" none
      (some [("a", Val.num 1), ("b", Val.num 2)]))
    { title := some "Y"
      metadata := some [("b", Val.num 3), ("c", Val.num 4)] } 1).1 "Y" rfl

/-! ### C3: mutability of `type` and `createdAt` under updates -/

/-- C3 counterexample: the PATCH handler spreads the whole request body
over the stored record, so a payload that supplies `type` or `createdAt`
does change them — here an update turns a `note` created at time 0 into
a `link` with `createdAt = 9`. -/
theorem update_changes_type_counterexample :
    ((applyBody (createMemory "a" 0 "hello" none none)
        { type := some "link", createdAt := some 9 } 5).type
      ≠ (createMemory "a" 0 "hello" none none).type) ∧
    ((applyBody (createMemory "a" 0 "hello" none none)
        { type := some "link", createdAt := some 9 } 5).createdAt
      ≠ (createMemory "a" 0 "hello" none none).createdAt) := by
  decide

/-- C3 (amended): `type` and `createdAt` are unchanged by every sequence
of updates whose payloads do not themselves supply a `type` or
`createdAt` field. -/
theorem type_createdAt_immutable (m : Record)
    (updates : List (UpdateBody × Nat))
    (h : ∀ bt ∈ updates, bt.1.type = none ∧ bt.1.createdAt = none) :
    (applyUpdates m updates).type = m.type ∧
    (applyUpdates m updates).createdAt = m.createdAt := by
  induction updates generalizing m with
  | nil => exact ⟨rfl, rfl⟩
  | cons bt rest ih =>
    obtain ⟨b, t⟩ := bt
    have hb := h (b, t) (List.mem_cons_self _ _)
    have hrest : ∀ bt ∈ rest, bt.1.type = none ∧ bt.1.createdAt = none :=
      fun bt hbt => h bt (List.mem_cons_of_mem _ hbt)
    have hih := ih (applyBody m b t) hrest
    refine ⟨?_, ?_⟩
    · rw [applyUpdates, hih.1]
      simp [applyBody, show b.type = none from hb.1]
    · rw [applyUpdates, hih.2]
      simp [applyBody, show b.createdAt = none from hb.2]

theorem type_createdAt_immutable_witness :
    (applyUpdates (createMemory "a" 3 "hello" none none)
        [({ title := some "Y" }, 5)]).type
      = (createMemory "a" 3 "hello" none none).type :=
  (type_createdAt_immutable (createMemory "a" 3 "hello" none none)
    [({ title := some "Y" }, 5)] (by decide)).1

/-! ### C5: pagination arithmetic -/

/-- For a positive divisor, the server's `(n + l - 1) / l` is the
mathematical ceiling of `n / l`. -/
theorem ceilDiv_eq_nat_ceil (n l : Nat) (hl : 1 ≤ l) :
    ceilDiv n l = ⌈(n : ℚ) / (l : ℚ)⌉₊ := by
  have hl0 : 0 < l := hl
  have hlq : (0 : ℚ) < (l : ℚ) := by exact_mod_cast hl0
  apply le_antisymm
  · have hle : (n : ℚ) / (l : ℚ) ≤ (⌈(n : ℚ) / (l : ℚ)⌉₊ : ℚ) :=
      Nat.le_ceil _
    have hmul : (n : ℚ) ≤ (⌈(n : ℚ) / (l : ℚ)⌉₊ : ℚ) * (l : ℚ) :=
      (div_le_iff₀ hlq).mp hle
    have hnat : n ≤ ⌈(n : ℚ) / (l : ℚ)⌉₊ * l := by exact_mod_cast hmul
    rw [ceilDiv]
    rw [Nat.div_le_iff_le_mul_add_pred hl0]
    calc n + l - 1 ≤ ⌈(n : ℚ) / (l : ℚ)⌉₊ * l + (l - 1) := by omega
      _ = l * ⌈(n : ℚ) / (l : ℚ)⌉₊ + (l - 1) := by ring_nf
  · apply Nat.ceil_le.mpr
    rw [div_le_iff₀ hlq]
    have hnat : n ≤ ceilDiv n l * l := by
      have hd : (n + l - 1) / l * l + (n + l - 1) % l = n + l - 1 :=
        Nat.div_add_mod' _ _
      have hm : (n + l - 1) % l < l := Nat.mod_lt _ hl0
      rw [ceilDiv]
      omega
    exact_mod_cast hnat

/-- C5: the list endpoint reports `totalItems` as the post-filter count
and `totalPages = ceil(totalItems / limit)`, returns the window
`[(page-1)*limit, (page-1)*limit + limit)` of the filtered ordered
sequence, yields an empty item list (not an error) for a page beyond
range, and in particular 25 filtered items with `limit = 10` give 10
items at page 1, 5 at page 3, 0 at page 4, and `totalPages = 3`. -/
theorem pagination_law (s : Store) (page limit : Nat)
    (ct : Option (List String)) (hp : 1 ≤ page) (hl : 1 ≤ limit) :
    ((listDocuments s page limit ct).pagination.totalItems
        = (tagFilter ct (getAllMemories s)).length) ∧
    ((listDocuments s page limit ct).pagination.totalPages
        = ⌈((tagFilter ct (getAllMemories s)).length : ℚ) / (limit : ℚ)⌉₊) ∧
    ((listDocuments s page limit ct).documents
        = (((tagFilter ct (getAllMemories s)).drop ((page - 1) * limit)).take
              limit).map (fun m => { m with memoryEntries := [] })) ∧
    ((tagFilter ct (getAllMemories s)).length ≤ (page - 1) * limit →
      (listDocuments s page limit ct).documents = []) ∧
    ((tagFilter ct (getAllMemories s)).length = 25 →
      ((listDocuments s 1 10 ct).documents.length = 10 ∧
       (listDocuments s 3 10 ct).documents.length = 5 ∧
       (listDocuments s 4 10 ct).documents.length = 0 ∧
       (listDocuments s 1 10 ct).pagination.totalPages = 3)) := by
  refine ⟨rfl, ?_, rfl, ?_, ?_⟩
  · exact ceilDiv_eq_nat_ceil _ _ hl
  · intro hbeyond
    have hdrop : (tagFilter ct (getAllMemories s)).drop ((page - 1) * limit)
        = [] := List.drop_eq_nil_of_le hbeyond
    simp [listDocuments, hdrop]
  · intro h25
    refine ⟨?_, ?_, ?_, ?_⟩
    · simp [listDocuments, h25]
    · simp [listDocuments, h25]
    · simp [listDocuments, h25]
    · simp [listDocuments, ceilDiv, h25]

theorem pagination_law_witness :
    (listDocuments [] 1 10 none).pagination.totalItems
      = (tagFilter none (getAllMemories [])).length :=
  (pagination_law [] 1 10 none (by decide) (by decide)).1

/-! ### C6: container-tag filtering -/

/-- C6: a non-empty `containerTags` filter retains exactly the records
sharing at least one tag with it, an empty or absent filter retains
every record, and in particular a record tagged `["x","y"]` passes the
filter `["y","z"]` and is dropped by the filter `["z"]`. -/
theorem tag_filter_law (ct : List String) (ms : List Record) :
    (ct ≠ [] →
      ∀ m, m ∈ tagFilter (some ct) ms ↔
        m ∈ ms ∧ ∃ t, t ∈ m.containerTags ∧ t ∈ ct) ∧
    tagFilter (some []) ms = ms ∧
    tagFilter none ms = ms ∧
    (∀ m, m ∈ ms → m.containerTags = ["x", "y"] →
      (m ∈ tagFilter (some ["y", "z"]) ms ∧
        m ∉ tagFilter (some ["z"]) ms)) := by
  refine ⟨?_, rfl, rfl, ?_⟩
  · intro hne m
    have hlen : 0 < ct.length := List.length_pos.mpr hne
    simp only [tagFilter, if_pos hlen, List.mem_filter, List.any_eq_true]
    constructor
    · rintro ⟨hm, t, ht, hc⟩
      exact ⟨hm, t, ht, by simpa using hc⟩
    · rintro ⟨hm, t, ht, hc⟩
      exact ⟨hm, t, ht, by simpa using hc⟩
  · intro m hm htags
    have h1 : tagFilter (some ["y", "z"]) ms
        = ms.filter
            (fun m => m.containerTags.any (fun t => ["y", "z"].contains t)) := by
      simp [tagFilter]
    have h2 : tagFilter (some ["z"]) ms
        = ms.filter
            (fun m => m.containerTags.any (fun t => ["z"].contains t)) := by
      simp [tagFilter]
    constructor
    · rw [h1, List.mem_filter]
      exact ⟨hm, by rw [htags]; decide⟩
    · rw [h2, List.mem_filter]
      rintro ⟨-, hc⟩
      rw [htags] at hc
      exact absurd hc (by decide)

theorem tag_filter_law_witness :
    tagFilter (some []) [createMemory "a" 0 "hello" none none]
      = [createMemory "a" 0 "hello" none none] :=
  (tag_filter_law [] [createMemory "a" 0 "hello" none none]).2.1

/-! ### C10: `memoryEntries` blanking in the list response -/

/-- C10: every document in the paginated list response is the stored
record with `memoryEntries` replaced by the empty sequence (all other
fields as stored), while the single-document GET returns the persisted
record unchanged. -/
theorem list_blanks_memoryEntries (s : Store) (page limit : Nat)
    (ct : Option (List String)) :
    ((listDocuments s page limit ct).documents
        = (((tagFilter ct (getAllMemories s)).drop ((page - 1) * limit)).take
              limit).map (fun m => { m with memoryEntries := [] })) ∧
    (∀ d ∈ (listDocuments s page limit ct).documents,
      d.memoryEntries = ([] : List Val)) ∧
    (∀ id r, lookupKey (jsonName id) s = some (FileContent.valid r) →
      getMemory s id = Except.ok r) := by
  refine ⟨rfl, ?_, ?_⟩
  · intro d hd
    simp only [listDocuments, List.mem_map] at hd
    obtain ⟨m, -, rfl⟩ := hd
    rfl
  · intro id r hr
    simp [getMemory, hr]

theorem list_blanks_memoryEntries_witness :
    getMemory [(jsonName "a", FileContent.valid (createMemory "a" 0 "x" none none))] "a"
      = Except.ok (createMemory "a" 0 "x" none none) :=
  (list_blanks_memoryEntries
      [(jsonName "a", FileContent.valid (createMemory "a" 0 "x" none none))]
      1 10 none).2.2 "a" (createMemory "a" 0 "x" none none) (by decide)

/-! ### Store lemmas -/

theorem lookupKey_eq_none_iff {β : Type} (k : String)
    (s : List (String × β)) :
    lookupKey k s = none ↔ k ∉ s.map Prod.fst := by
  induction s with
  | nil => simp [lookupKey]
  | cons p rest ih =>
    obtain ⟨k', v'⟩ := p
    by_cases h : k' = k
    · subst h
      simp [lookupKey]
    · simp only [lookupKey, if_neg h, List.map_cons, List.mem_cons, not_or,
        ih]
      constructor
      · intro hn
        exact ⟨fun he => h he.symm, hn⟩
      · intro hn
        exact hn.2

theorem lookupKey_mem {β : Type} {k : String} {v : β}
    {s : List (String × β)} (h : lookupKey k s = some v) : (k, v) ∈ s := by
  induction s with
  | nil => cases h
  | cons p rest ih =>
    obtain ⟨k', v'⟩ := p
    by_cases hk : k' = k
    · subst hk
      rw [lookupKey, if_pos rfl] at h
      cases h
      exact List.mem_cons_self _ _
    · rw [lookupKey, if_neg hk] at h
      exact List.mem_cons_of_mem _ (ih h)

theorem lookupKey_filter_ne {β : Type} (k : String)
    (s : List (String × β)) :
    lookupKey k (s.filter (fun p => p.1 != k)) = none := by
  induction s with
  | nil => rfl
  | cons p rest ih =>
    obtain ⟨k', v'⟩ := p
    by_cases h : k' = k
    · subst h
      simpa using ih
    · simpa [lookupKey, h] using ih

theorem lookupKey_replace {β : Type} (k : String) (c : β)
    (s : List (String × β)) :
    lookupKey k (s.map (fun p => if p.1 = k then (p.1, c) else p))
      = (lookupKey k s).map (fun _ => c) := by
  induction s with
  | nil => rfl
  | cons p rest ih =>
    obtain ⟨k', v'⟩ := p
    by_cases h : k' = k <;> simp [lookupKey, h, ih]

theorem jsonName_inj {a b : String} (h : jsonName a = jsonName b) :
    a = b := by
  have h2 := congrArg String.data h
  simp only [jsonName, String.data_append] at h2
  exact String.ext (List.append_cancel_right h2)

/-! ### C8: deletion semantics -/

/-- C8: after a successful delete of `id`, a GET of `id` answers
NotFound and a second delete of `id` also answers NotFound; delete
answers NotFound whenever no file for `id` exists. -/
theorem delete_semantics (s : Store) (id : String) :
    (∀ s', deleteMemory s id = Except.ok s' →
      getMemory s' id = Except.error ApiError.notFound ∧
      deleteMemory s' id = Except.error ApiError.notFound) ∧
    (lookupKey (jsonName id) s = none →
      deleteMemory s id = Except.error ApiError.notFound) := by
  constructor
  · intro s' hdel
    unfold deleteMemory at hdel
    by_cases h : (lookupKey (jsonName id) s).isSome
    · rw [if_pos h] at hdel
      cases hdel
      have hnone := lookupKey_filter_ne (jsonName id) s
      constructor
      · unfold getMemory
        rw [hnone]
      · unfold deleteMemory
        rw [hnone]
        rfl
    · rw [if_neg h] at hdel
      cases hdel
  · intro hn
    unfold deleteMemory
    rw [hn]
    rfl

theorem delete_semantics_witness :
    getMemory ([] : Store) "a" = Except.error ApiError.notFound ∧
    deleteMemory ([] : Store) "a" = Except.error ApiError.notFound :=
  (delete_semantics
      [(jsonName "a", FileContent.valid (createMemory "a" 0 "x" none none))]
      "a").1 [] (by rfl)

/-! ### C9: corrupt-record resilience of enumeration -/

/-- What the read loop extracts from one directory entry: the parsed
record for a parseable `.json` file, nothing otherwise. -/
def parseEntry (p : String × FileContent) : Option Record :=
  if isJsonFile p.1 then
    match p.2 with
    | FileContent.valid r => some r
    | FileContent.corrupt => none
  else none

/-- C9: enumeration never aborts on a corrupt record — it returns
exactly the records that parse: `readMemories` is the total function
`filterMap parseEntry`, every parseable `.json` record appears in
`getAllMemories`, and everything in `getAllMemories` comes from some
parseable file. -/
theorem listAll_corrupt_resilience (s : Store) :
    (readMemories s = s.filterMap parseEntry) ∧
    (∀ name r, (name, FileContent.valid r) ∈ s → isJsonFile name = true →
      r ∈ getAllMemories s) ∧
    (∀ r, r ∈ getAllMemories s →
      ∃ name, (name, FileContent.valid r) ∈ s ∧ isJsonFile name = true) := by
  have hchar : ∀ s : Store, readMemories s = s.filterMap parseEntry := by
    intro s
    induction s with
    | nil => rfl
    | cons p rest ih =>
      obtain ⟨name, c⟩ := p
      cases hj : isJsonFile name <;> cases c <;>
        simp [readMemories, parseEntry, List.filterMap_cons, hj, ih]
  have hmem : ∀ r, r ∈ getAllMemories s ↔ r ∈ readMemories s := fun r =>
    (List.perm_insertionSort byCreatedAtDesc (readMemories s)).mem_iff
  refine ⟨hchar s, ?_, ?_⟩
  · intro name r hmemS hjson
    rw [hmem, hchar s, List.mem_filterMap]
    exact ⟨(name, FileContent.valid r), hmemS, by simp [parseEntry, hjson]⟩
  · intro r hr
    rw [hmem, hchar s, List.mem_filterMap] at hr
    obtain ⟨⟨name, c⟩, hpmem, hparse⟩ := hr
    cases c with
    | valid r' =>
      cases hj : isJsonFile name with
      | true =>
        simp only [parseEntry, hj, if_pos] at hparse
        cases hparse
        exact ⟨name, hpmem, hj⟩
      | false => simp [parseEntry, hj] at hparse
    | corrupt => simp [parseEntry] at hparse

theorem listAll_corrupt_resilience_witness :
    createMemory "a" 0 "x" none none
      ∈ getAllMemories
          [(jsonName "a", FileContent.valid (createMemory "a" 0 "x" none none)),
           (jsonName "b", FileContent.corrupt)] :=
  (listAll_corrupt_resilience
      [(jsonName "a", FileContent.valid (createMemory "a" 0 "x" none none)),
       (jsonName "b", FileContent.corrupt)]).2.1
    (jsonName "a") (createMemory "a" 0 "x" none none) (by decide) (by decide)

/-! ### C7: recency ordering -/

/-- Descending order on `Nat`, the order of the creation-time
comparator. -/
def natGe (x y : Nat) : Prop := y ≤ x

instance : IsAntisymm Nat natGe :=
  ⟨fun _ _ h1 h2 => Nat.le_antisymm h2 h1⟩

/-- A list sorted by strictly distinct creation times descending is
determined by its multiset of elements. -/
theorem sorted_desc_three_unique (l : List Record) (r1 r2 r3 : Record)
    (hperm : l.Perm [r1, r2, r3]) (hsort : l.Sorted byCreatedAtDesc)
    (h12 : r1.createdAt < r2.createdAt) (h23 : r2.createdAt < r3.createdAt) :
    l = [r3, r2, r1] := by
  have hlen : l.length = 3 := by simpa using hperm.length_eq
  obtain ⟨a, b, c, rfl⟩ : ∃ a b c, l = [a, b, c] := by
    rcases l with _ | ⟨a, rest⟩
    · simp at hlen
    rcases rest with _ | ⟨b, rest2⟩
    · simp at hlen
    rcases rest2 with _ | ⟨c, rest3⟩
    · simp at hlen
    rcases rest3 with _ | ⟨d, rest4⟩
    · exact ⟨a, b, c, rfl⟩
    · simp at hlen
  have hab : b.createdAt ≤ a.createdAt :=
    List.rel_of_sorted_cons hsort b (by simp)
  have hbc : c.createdAt ≤ b.createdAt :=
    List.rel_of_sorted_cons hsort.of_cons c (by simp)
  have hmap := hperm.map Record.createdAt
  have hperm' : ([a.createdAt, b.createdAt, c.createdAt] : List Nat).Perm
      [r3.createdAt, r2.createdAt, r1.createdAt] := by
    have hrev : ([r1.createdAt, r2.createdAt, r3.createdAt] : List Nat).Perm
        [r3.createdAt, r2.createdAt, r1.createdAt] := by
      simpa using
        List.reverse_perm [r3.createdAt, r2.createdAt, r1.createdAt]
    exact (by simpa using hmap :
      ([a.createdAt, b.createdAt, c.createdAt] : List Nat).Perm
        [r1.createdAt, r2.createdAt, r3.createdAt]).trans hrev
  have hs1 : List.Sorted natGe [a.createdAt, b.createdAt, c.createdAt] := by
    simp [natGe, List.sorted_cons]
    omega
  have hs2 : List.Sorted natGe
      [r3.createdAt, r2.createdAt, r1.createdAt] := by
    simp [natGe, List.sorted_cons]
    omega
  have htimes : [a.createdAt, b.createdAt, c.createdAt]
      = [r3.createdAt, r2.createdAt, r1.createdAt] :=
    List.eq_of_perm_of_sorted hperm' hs1 hs2
  have hta : a.createdAt = r3.createdAt := by
    have := congrArg (fun l => l.headI) htimes
    simpa using this
  have htb : b.createdAt = r2.createdAt := by
    have := congrArg (fun l => l.tail.headI) htimes
    simpa using this
  have htc : c.createdAt = r1.createdAt := by
    have := congrArg (fun l => l.tail.tail.headI) htimes
    simpa using this
  have hamem : a = r1 ∨ a = r2 ∨ a = r3 := by
    have := hperm.subset (List.mem_cons_self a [b, c])
    simpa using this
  have hbmem : b = r1 ∨ b = r2 ∨ b = r3 := by
    have := hperm.subset (show b ∈ [a, b, c] by simp)
    simpa using this
  have hcmem : c = r1 ∨ c = r2 ∨ c = r3 := by
    have := hperm.subset (show c ∈ [a, b, c] by simp)
    simpa using this
  have ha3 : a = r3 := by
    rcases hamem with h | h | h
    · exfalso
      have ht : a.createdAt = r1.createdAt := by rw [h]
      omega
    · exfalso
      have ht : a.createdAt = r2.createdAt := by rw [h]
      omega
    · exact h
  have hb2 : b = r2 := by
    rcases hbmem with h | h | h
    · exfalso
      have ht : b.createdAt = r1.createdAt := by rw [h]
      omega
    · exact h
    · exfalso
      have ht : b.createdAt = r3.createdAt := by rw [h]
      omega
  have hc1 : c = r1 := by
    rcases hcmem with h | h | h
    · exact h
    · exfalso
      have ht : c.createdAt = r2.createdAt := by rw [h]
      omega
    · exfalso
      have ht : c.createdAt = r3.createdAt := by rw [h]
      omega
  rw [ha3, hb2, hc1]

/-- C7: `getAllMemories` returns the parsed records sorted by
`createdAt` descending (a deterministic stable sort of the enumeration),
and in particular three records with creation times `t1 < t2 < t3`, in
whatever enumeration order, come back as `[t3, t2, t1]`. -/
theorem listAll_ordering (s : Store) :
    ((getAllMemories s).Sorted byCreatedAtDesc ∧
      (getAllMemories s).Perm (readMemories s)) ∧
    (∀ r1 r2 r3 : Record,
      r1.createdAt < r2.createdAt → r2.createdAt < r3.createdAt →
      ∀ s' : Store, (readMemories s').Perm [r1, r2, r3] →
        getAllMemories s' = [r3, r2, r1]) := by
  refine ⟨⟨List.sorted_insertionSort _ _, List.perm_insertionSort _ _⟩, ?_⟩
  intro r1 r2 r3 h12 h23 s' hp
  exact sorted_desc_three_unique _ r1 r2 r3
    ((List.perm_insertionSort _ _).trans hp)
    (List.sorted_insertionSort _ _) h12 h23

theorem listAll_ordering_witness :
    getAllMemories
        [(jsonName "b", FileContent.valid (createMemory "b" 2 "q" none none)),
         (jsonName "c", FileContent.valid (createMemory "c" 3 "r" none none)),
         (jsonName "a", FileContent.valid (createMemory "a" 1 "p" none none))]
      = [createMemory "c" 3 "r" none none,
         createMemory "b" 2 "q" none none,
         createMemory "a" 1 "p" none none] :=
  (listAll_ordering []).2
    (createMemory "a" 1 "p" none none)
    (createMemory "b" 2 "q" none none)
    (createMemory "c" 3 "r" none none)
    (by decide) (by decide)
    [(jsonName "b", FileContent.valid (createMemory "b" 2 "q" none none)),
     (jsonName "c", FileContent.valid (createMemory "c" 3 "r" none none)),
     (jsonName "a", FileContent.valid (createMemory "a" 1 "p" none none))]
    (by decide)

/-! ### C4: identity and one-file-per-record -/

/-- A parseable file is named by the id of the record it holds. -/
def entryNamedById (p : String × FileContent) : Prop :=
  match p.2 with
  | FileContent.valid r => p.1 = jsonName r.id
  | FileContent.corrupt => True

instance : DecidablePred entryNamedById := fun p => by
  rcases p with ⟨name, c⟩
  cases c with
  | valid r => exact inferInstanceAs (Decidable (name = jsonName r.id))
  | corrupt => exact inferInstanceAs (Decidable True)

/-- Store well-formedness: filenames are unique and every parseable file
is named by the id of the record inside it — one file per record, keyed
by its id. -/
def WellFormedStore (s : Store) : Prop :=
  (s.map Prod.fst).Nodup ∧ ∀ p ∈ s, entryNamedById p

instance (s : Store) : Decidable (WellFormedStore s) := by
  unfold WellFormedStore
  infer_instance

/-- Inversion of a successful PATCH. -/
theorem updateMemory_ok {s : Store} {id : String} {b : UpdateBody}
    {now : Nat} {r : Record} {s' : Store}
    (h : updateMemory s id b now = Except.ok (r, s')) :
    ∃ m, lookupKey (jsonName id) s = some (FileContent.valid m) ∧
      r = applyBody m b now ∧ s' = saveMemory s r := by
  unfold updateMemory at h
  cases hl : lookupKey (jsonName id) s with
  | none =>
    rw [hl] at h
    cases h
  | some c =>
    cases c with
    | corrupt =>
      rw [hl] at h
      cases h
    | valid m =>
      rw [hl] at h
      simp only [Except.ok.injEq, Prod.mk.injEq] at h
      exact ⟨m, rfl, h.1.symm, by rw [← h.2, h.1]⟩

def c4Store : Store :=
  [(jsonName "a", FileContent.valid (createMemory "a" 0 "hello" none none))]

/-- C4 counterexample: the PATCH handler spreads the whole body over the
record and then saves at `${updated.id}.json`, so an update whose
payload supplies `id` re-keys the record and leaves the old file behind:
one update of the single record of `c4Store` yields a store with two
files, and the record is now stored under a new key. -/
theorem update_duplicates_file_counterexample :
    ((updateMemory c4Store "a" { id := some "b" } 1).toOption.map
        (fun p => p.2.map Prod.fst)
      = some [jsonName "a", jsonName "b"]) ∧
    ((updateMemory c4Store "a" { id := some "b" } 1).toOption.map
        (fun p => p.1.id) = some "b") := by
  constructor
  · rfl
  · rfl

/-- C4 (amended): as long as update payloads do not supply an `id`
field, every operation preserves well-formedness — each record is held
in exactly one file, keyed `${id}.json` by its id: creation with a fresh
id adds exactly its own file, an update keeps the record's id, its file
key, and the set of filenames, and deletion preserves well-formedness of
the rest. -/
theorem id_stability (s : Store) (hwf : WellFormedStore s) :
    (∀ id now content tags meta,
      lookupKey (jsonName id) s = none →
      WellFormedStore (createMemoryOp s id now content tags meta).2 ∧
      (createMemoryOp s id now content tags meta).2.map Prod.fst
        = s.map Prod.fst ++ [jsonName id]) ∧
    (∀ id b now r s', b.id = none →
      updateMemory s id b now = Except.ok (r, s') →
      WellFormedStore s' ∧ r.id = id ∧
      s'.map Prod.fst = s.map Prod.fst ∧
      lookupKey (jsonName id) s' = some (FileContent.valid r)) ∧
    (∀ id s', deleteMemory s id = Except.ok s' → WellFormedStore s') := by
  refine ⟨?_, ?_, ?_⟩
  · intro id now content tags meta hfresh
    have hnotin : jsonName id ∉ s.map Prod.fst :=
      (lookupKey_eq_none_iff _ s).mp hfresh
    have hid : (createMemory id now content tags meta).id = id := rfl
    have hsave : (createMemoryOp s id now content tags meta).2
        = s ++ [(jsonName id,
            FileContent.valid (createMemory id now content tags meta))] := by
      simp [createMemoryOp, saveMemory, hid, hfresh]
    rw [hsave]
    refine ⟨⟨?_, ?_⟩, by simp⟩
    · rw [List.map_append]
      simp only [List.map_cons, List.map_nil]
      exact List.Nodup.append hwf.1 (List.nodup_singleton _)
        (by simpa using hnotin)
    · intro p hp
      rcases List.mem_append.mp hp with hold | hnew
      · exact hwf.2 p hold
      · rcases List.mem_singleton.mp hnew with rfl
        exact rfl
  · intro id b now r s' hbid hup
    obtain ⟨m, hl, hr, hs'⟩ := updateMemory_ok hup
    have hpair : (jsonName id, FileContent.valid m) ∈ s := lookupKey_mem hl
    have hmid : m.id = id :=
      (jsonName_inj
        (show jsonName id = jsonName m.id from hwf.2 _ hpair)).symm
    have hrid : r.id = id := by
      rw [hr]
      show b.id.getD m.id = id
      rw [hbid]
      exact hmid
    have hkey : jsonName r.id = jsonName id := by rw [hrid]
    have hsome : (lookupKey (jsonName r.id) s).isSome := by
      rw [hkey, hl]
      rfl
    have hs'map : s' = s.map
        (fun p => if p.1 = jsonName r.id then (p.1, FileContent.valid r)
          else p) := by
      rw [hs', saveMemory, if_pos hsome]
    have hkeys : s'.map Prod.fst = s.map Prod.fst := by
      rw [hs'map, List.map_map]
      refine List.map_congr_left ?_
      intro p hp
      by_cases h : p.1 = jsonName r.id <;> simp [h]
    refine ⟨⟨?_, ?_⟩, hrid, hkeys, ?_⟩
    · rw [hkeys]
      exact hwf.1
    · intro p hp
      rw [hs'map] at hp
      rcases List.mem_map.mp hp with ⟨q, hq, rfl⟩
      by_cases h : q.1 = jsonName r.id
      · rw [if_pos h]
        show q.1 = jsonName r.id
        exact h
      · rw [if_neg h]
        exact hwf.2 q hq
    · rw [hs'map, ← hkey, lookupKey_replace, hkey, hl]
      rfl
  · intro id s' hdel
    unfold deleteMemory at hdel
    by_cases h : (lookupKey (jsonName id) s).isSome
    · rw [if_pos h] at hdel
      cases hdel
      constructor
      · exact hwf.1.sublist (List.Sublist.map _ (List.filter_sublist s))
      · intro p hp
        exact hwf.2 p (List.mem_of_mem_filter hp)
    · rw [if_neg h] at hdel
      cases hdel

theorem id_stability_witness :
    WellFormedStore (createMemoryOp [] "a" 0 "x" none none).2 ∧
    (createMemoryOp [] "a" 0 "x" none none).2.map Prod.fst
      = ([] : Store).map Prod.fst ++ [jsonName "a"] :=
  (id_stability [] (by decide)).1 "a" 0 "x" none none rfl

end Supermemory
